import Mathlib

/-!
Verification of the chunked, resumable CSV-ingestion engine of this
repository (scripts/load_single.py and scripts/load_csvs.py).

The source is embedded shallowly:
* CSV data rows are `List String` (pandas is invoked with `dtype=str`,
  `keep_default_na=False`, so every field is text and an empty field is `""`).
* `normalize_df` (`df.replace({"": None})`) turns each field into an
  `Option String`, with the empty string becoming `none`.
* `insert_chunk` is the column-reconciliation-plus-insert routine that both
  loaders share verbatim: it builds the case-insensitive dict
  `{c.lower(): c for c in csv_cols}` (later entries overwrite earlier ones,
  hence `lookupLast`), computes the `missing` and `extra` lists, raises on
  either, and otherwise reorders every row to the target column order.
* The `pd.read_csv(..., chunksize=B, skiprows=range(1, skip+1))` reader is
  `chunksOf B (rows.drop skip)`.
* The per-chunk retry/commit loop of `load_single.py:main` is `runChunk` /
  `runChunks` / `singleLoad`; a database session is a pair of committed rows
  and uncommitted (in-transaction) rows, and replacing the connection after a
  transient `pyodbc.OperationalError` discards the uncommitted rows.
* The multi-table driver of `load_csvs.py` (`load_csv`, `truncate_table`,
  `main`) is `load_csv` / `truncate_table` / `runTables` over a tagged
  database state `DB`; `MLoop.checks` counts how many times the
  reconciliation check inside `insert_chunk` was executed.
-/

namespace AzLoad

/-- One raw CSV data row: every field is text (`dtype=str`,
`keep_default_na=False`). -/
abbrev RawRow := List String

/-- One row as bound by `cursor.executemany`: empty strings have been
replaced by SQL NULL (`none`). -/
abbrev Row := List (Option String)

/-- Normalization of one row, from `df.replace({"": None})`. -/
def normalizeRow (r : RawRow) : Row :=
  r.map fun v => if v = "" then none else some v

/-- `normalize_df` from both loaders: replace empty strings with NULLs. -/
def normalize_df (rows : List RawRow) : List Row :=
  rows.map normalizeRow

/-- Python's `str.lower()` as used by `insert_chunk` (`c.lower()`):
characterwise ASCII case folding. Defined by a direct map over the
string's characters so that concrete runs evaluate. -/
def lower (s : String) : String := ⟨s.data.map Char.toLower⟩

/-- Errors raised by the loaders: the two `ValueError`s of `insert_chunk`,
the `RuntimeError` for an absent target table, the re-raised
`pyodbc.OperationalError` once the retry ceiling is exceeded, and a generic
driver error for the multi-table loader (which has no retry loop). -/
inductive LoadErr where
  | missingColumns : List String → LoadErr
  | extraColumns : List String → LoadErr
  | tableMissing : LoadErr
  | retriesExhausted : LoadErr
  | driverError : LoadErr
deriving DecidableEq

instance : DecidableEq (Except LoadErr (List Row)) := fun a b =>
  match a, b with
  | .ok x, .ok y =>
    if h : x = y then .isTrue (by rw [h])
    else .isFalse (fun hc => h (by injection hc))
  | .error x, .error y =>
    if h : x = y then .isTrue (by rw [h])
    else .isFalse (fun hc => h (by injection hc))
  | .ok _, .error _ => .isFalse (fun hc => Except.noConfusion hc)
  | .error _, .ok _ => .isFalse (fun hc => Except.noConfusion hc)

/-- Lookup in the dict `{c.lower(): c for c in cols}`: Python dict
comprehension keeps the LAST field whose lowercase form equals `key`. -/
def lookupLast (key : String) : List String → Option String
  | [] => none
  | c :: cs =>
    match lookupLast key cs with
    | some f => some f
    | none => if (lower c) = key then some c else none

/-- The `missing` list of `insert_chunk`: target columns whose lowercase
form is absent from the CSV header. -/
def missingList (tableCols csvCols : List String) : List String :=
  tableCols.filter fun c => (lookupLast (lower c) csvCols).isNone

/-- The `extra` list of `insert_chunk`: CSV header fields whose lowercase
form matches no target column. -/
def extraList (tableCols csvCols : List String) : List String :=
  csvCols.filter fun c => tableCols.all fun t => (lower t) != (lower c)

/-- Value of the CSV column literally named `name` in a row
(`df[ordered_cols]` selects columns by exact name). -/
def colValue : List String → Row → String → Option String
  | [], _, _ => none
  | _ :: _, [], _ => none
  | c :: cs, v :: vs, name => if c = name then v else colValue cs vs name

/-- Row reordering of `insert_chunk`:
`ordered_cols = [csv_lower[c.lower()] for c in table_cols]` followed by
`df[ordered_cols]`. -/
def reorderRow (tableCols csvCols : List String) (row : Row) : Row :=
  tableCols.map fun t =>
    match lookupLast (lower t) csvCols with
    | some f => colValue csvCols row f
    | none => none

/-- `insert_chunk` from both loaders: validate the header against the target
columns (case-insensitively), raise `ValueError` listing the missing or
extra columns, otherwise produce the rows reordered to target column order
(which `executemany` then inserts into the open transaction). -/
def insert_chunk (tableCols csvCols : List String) (rows : List Row) :
    Except LoadErr (List Row) :=
  if missingList tableCols csvCols ≠ [] then
    .error (.missingColumns (missingList tableCols csvCols))
  else if extraList tableCols csvCols ≠ [] then
    .error (.extraColumns (extraList tableCols csvCols))
  else
    .ok (rows.map (reorderRow tableCols csvCols))

/-- Value of the first CSV field whose name matches `t` up to case; this is
the spec's description of reconciliation ("builds a case-insensitive
bijective mapping from target column to source field"), used to state that
`insert_chunk`'s reordering agrees with it. -/
def valueCI : List String → Row → String → Option String
  | [], _, _ => none
  | _ :: _, [], _ => none
  | c :: cs, v :: vs, t => if (lower c) = (lower t) then v else valueCI cs vs t

/-- Fuelled chunking; with fuel at least `xs.length` and `0 < b` this splits
`xs` into consecutive runs of `b` elements. -/
def chunksOfFuel (b : Nat) : Nat → List α → List (List α)
  | _, [] => []
  | 0, _ :: _ => []
  | f + 1, x :: xs => ((x :: xs).take b) :: chunksOfFuel b f ((x :: xs).drop b)

/-- The chunked reader `pd.read_csv(..., chunksize=b)`: the data rows split
into consecutive batches of `b` rows (the last batch possibly shorter). -/
def chunksOf (b : Nat) (xs : List α) : List (List α) :=
  chunksOfFuel b xs.length xs

/-- Pair each chunk with the number of consecutive transient
(`pyodbc.OperationalError`) failures its insert will hit before succeeding,
as given by the failure schedule `fails : chunk index → failure count`. -/
def attachFails (fails : Nat → Nat) : Nat → List (List RawRow) → List (Nat × List RawRow)
  | _, [] => []
  | i, c :: rest => (fails i, c) :: attachFails fails (i + 1) rest

/-- Mutable state of the `load_single.py` loop: `committed` are the rows the
target table durably holds, `pendingRows` the rows inserted on the current
session but not yet committed, `pending` is `pending_chunks`, and `total`
is `total_inserted`. -/
structure LoopState where
  committed : List Row
  pendingRows : List Row
  pending : Nat
  total : Nat
deriving DecidableEq

/-- One iteration of the `for chunk in reader` loop of `load_single.py:main`,
including the inner `while True` retry loop, for a chunk whose insert fails
`f` consecutive times before succeeding.

A `ValueError` from `insert_chunk` is not a `pyodbc.OperationalError`, so it
propagates: the connection is closed in `finally` and the uncommitted rows
are discarded. A transient failure with `attempt > max_retries` re-raises
likewise. A transient failure within the ceiling closes and replaces the
connection — which discards the uncommitted rows of the session — and
retries the same chunk; on success `pending_chunks` and `total_inserted`
are bumped and a commit is issued once `pending_chunks >= commit_every`. -/
def runChunk (m ce : Nat) (tc cc : List String) (f : Nat) (c : List RawRow)
    (s : LoopState) : LoopState × Option LoadErr :=
  match insert_chunk tc cc (normalize_df c) with
  | .error e => (⟨s.committed, [], s.pending, s.total⟩, some e)
  | .ok rows =>
    if m < f then
      (⟨s.committed, [], s.pending, s.total⟩, some .retriesExhausted)
    else
      let pend := (if f = 0 then s.pendingRows else []) ++ rows
      let total := s.total + c.length
      if ce ≤ s.pending + 1 then
        (⟨s.committed ++ pend, [], 0, total⟩, none)
      else
        (⟨s.committed, pend, s.pending + 1, total⟩, none)

/-- The whole `for chunk in reader` loop: each chunk is processed in order;
the first error aborts the loop. -/
def runChunks (m ce : Nat) (tc cc : List String) :
    List (Nat × List RawRow) → LoopState → LoopState × Option LoadErr
  | [], s => (s, none)
  | (f, c) :: rest, s =>
    match runChunk m ce tc cc f c s with
    | (s1, none) => runChunks m ce tc cc rest s1
    | (s1, some e) => (s1, some e)

/-- Observable outcome of one `load_single.py` run. -/
structure SingleOutcome where
  committed : List Row
  total : Nat
  skipUsed : Nat
  err : Option LoadErr
deriving DecidableEq

/-- The body of `load_single.py:main`: optional truncate (committed at
once), optional resume (the skip offset is the target's current row count),
the chunked reader over the rows after the skip, the retry/commit loop, and
the final commit of any leftover pending chunks. On an error the
uncommitted rows are discarded when the connection is closed. -/
def singleLoad (m ce B : Nat) (truncate resume : Bool) (tc cc : List String)
    (target : List Row) (fileRows : List RawRow) (fails : Nat → Nat) :
    SingleOutcome :=
  let target1 := if truncate then [] else target
  let skip := if resume then target1.length else 0
  let chunks := chunksOf B (fileRows.drop skip)
  let r := runChunks m ce tc cc (attachFails fails 0 chunks) ⟨target1, [], 0, 0⟩
  { committed :=
      match r.2 with
      | some _ => r.1.committed
      | none =>
        if 0 < r.1.pending then r.1.committed ++ r.1.pendingRows
        else r.1.committed
    total := r.1.total
    skipUsed := skip
    err := r.2 }

/-- Database state seen by the multi-table loader: a log of committed
`(table, row)` pairs (visible to other sessions) and the uncommitted pairs
of the currently open transaction. -/
structure DB where
  committed : List (String × Row)
  uncommitted : List (String × Row)
deriving DecidableEq

/-- `conn.commit()`: the open transaction's rows become durable. -/
def commitDB (db : DB) : DB :=
  ⟨db.committed ++ db.uncommitted, []⟩

/-- `conn.rollback()` (or closing the connection without committing): the
open transaction's rows are discarded. -/
def rollbackDB (db : DB) : DB :=
  ⟨db.committed, []⟩

/-- Rows of table `t` visible to an external reader (committed only). -/
def rowsOf (t : String) (db : DB) : List Row :=
  (db.committed.filter fun p => p.1 == t).map Prod.snd

/-- Database semantics of removing every row of table `t` (what both
`TRUNCATE TABLE` and `DELETE FROM` do to the table's contents). -/
def clearTable (t : String) (db : DB) : DB :=
  ⟨db.committed.filter fun p => !(p.1 == t),
   db.uncommitted.filter fun p => !(p.1 == t)⟩

/-- `truncate_table` from load_csvs.py: try `TRUNCATE TABLE`; if the driver
raises (`except pyodbc.Error`), fall back to `DELETE FROM`. `truncFails`
records whether the `TRUNCATE` statement raised. -/
def truncate_table (truncFails : Bool) (t : String) (db : DB) : DB :=
  if truncFails then clearTable t db else clearTable t db

/-- One table's load job in the multi-table loader: its name, the target
columns returned by `get_table_columns` (`[]` when the table is absent),
the CSV header and data rows, the effective chunk size and commit cadence
(the per-table dict lookups), the truncate flag, whether `TRUNCATE` would
raise, and the chunk index (if any) at which `executemany` raises a driver
error. -/
structure TableJob where
  name : String
  tableCols : List String
  csvCols : List String
  rows : List RawRow
  chunksize : Nat
  commit_every : Nat
  truncate : Bool
  truncFails : Bool
  failAt : Option Nat
deriving DecidableEq

/-- State threaded through the `for i, chunk in enumerate(reader)` loop of
`load_csvs.py:load_csv`; `checks` counts how many times the column
reconciliation check at the top of `insert_chunk` has been executed. -/
structure MLoop where
  db : DB
  pending : Nat
  total : Nat
  checks : Nat
  err : Option LoadErr
deriving DecidableEq

/-- The chunk loop of `load_csvs.py:load_csv` (no retry loop here): each
chunk is normalized and passed to `insert_chunk` — whose validation runs on
every call — then the rows join the open transaction, `pending_batches` and
`total` are bumped, and a commit is issued once `pending_batches >=
commit_every`. A `ValueError` or driver error aborts the loop. -/
def loadChunksM (name : String) (tc cc : List String) (K : Nat)
    (failAt : Option Nat) : Nat → List (List RawRow) → MLoop → MLoop
  | _, [], s => s
  | i, c :: rest, s =>
    match insert_chunk tc cc (normalize_df c) with
    | .error e => { s with checks := s.checks + 1, err := some e }
    | .ok rows =>
      if failAt = some i then
        { s with checks := s.checks + 1, err := some .driverError }
      else
        let db : DB := ⟨s.db.committed, s.db.uncommitted ++ rows.map fun r => (name, r)⟩
        let total := s.total + c.length
        if K ≤ s.pending + 1 then
          loadChunksM name tc cc K failAt (i + 1) rest
            ⟨commitDB db, 0, total, s.checks + 1, none⟩
        else
          loadChunksM name tc cc K failAt (i + 1) rest
            ⟨db, s.pending + 1, total, s.checks + 1, none⟩

/-- `load_csvs.py:load_csv`: check the target table exists, optionally
truncate it (committing the truncation), read the file in chunks, run the
chunk loop, and issue the final commit if any batches are left pending.
Errors propagate to the caller with the transaction still open. -/
def load_csv (job : TableJob) (db : DB) : MLoop :=
  if job.tableCols.isEmpty then ⟨db, 0, 0, 0, some .tableMissing⟩
  else
    let db1 := if job.truncate then
        commitDB (truncate_table job.truncFails job.name db)
      else db
    let s := loadChunksM job.name job.tableCols job.csvCols job.commit_every
      job.failAt 0 (chunksOf job.chunksize job.rows) ⟨db1, 0, 0, 0, none⟩
    { s with db :=
        match s.err with
        | some _ => s.db
        | none => if 0 < s.pending then commitDB s.db else s.db }

/-- Result of a whole multi-table run: final database state, the names of
the tables that were processed, and the failure (if any) that stopped the
run. -/
structure RunResult where
  db : DB
  processed : List String
  failure : Option (String × LoadErr)
deriving DecidableEq

/-- The `for file in csv_files` loop of `load_csvs.py:main`: tables are
loaded strictly in order; on any exception the transaction is rolled back
and the loop `break`s, so no further table is processed. -/
def runTables : List TableJob → DB → RunResult
  | [], db => ⟨db, [], none⟩
  | j :: rest, db =>
    let s := load_csv j db
    match s.err with
    | none =>
      let r := runTables rest s.db
      ⟨r.db, j.name :: r.processed, r.failure⟩
    | some e => ⟨rollbackDB s.db, [j.name], some (j.name, e)⟩

/-! ### Lemmas about the chunked reader -/

lemma chunksOfFuel_nil (b f : Nat) : chunksOfFuel b f ([] : List α) = [] := by
  cases f <;> rfl

lemma chunksOfFuel_cons (b f : Nat) (x : α) (xs : List α) :
    chunksOfFuel b (f + 1) (x :: xs) =
      ((x :: xs).take b) :: chunksOfFuel b f ((x :: xs).drop b) := rfl

lemma chunksOfFuel_flatten (b : Nat) (hb : 0 < b) :
    ∀ (f : Nat) (xs : List α), xs.length ≤ f → (chunksOfFuel b f xs).flatten = xs := by
  intro f
  induction f with
  | zero =>
    intro xs h
    have hxs : xs = [] := List.length_eq_zero.mp (Nat.le_zero.mp h)
    subst hxs
    simp [chunksOfFuel_nil]
  | succ f ih =>
    intro xs h
    cases xs with
    | nil => simp [chunksOfFuel_nil]
    | cons x xs =>
      rw [chunksOfFuel_cons, List.flatten_cons, ih _ ?_, List.take_append_drop]
      rw [List.length_drop]
      simp only [List.length_cons] at h ⊢
      omega

lemma ceilDiv_succ (L b : Nat) (hb : 0 < b) (hL : 0 < L) :
    (L + b - 1) / b = (L - 1) / b + 1 := by
  have h1 : L + b - 1 = (L - 1) + b := by omega
  rw [h1, Nat.add_div_right _ hb]

lemma chunksOfFuel_length (b : Nat) (hb : 0 < b) :
    ∀ (f : Nat) (xs : List α), xs.length ≤ f →
      (chunksOfFuel b f xs).length = (xs.length + b - 1) / b := by
  intro f
  induction f with
  | zero =>
    intro xs h
    have hxs : xs = [] := List.length_eq_zero.mp (Nat.le_zero.mp h)
    subst hxs
    rw [chunksOfFuel_nil]
    simp only [List.length_nil]
    symm
    exact Nat.div_eq_of_lt (by omega)
  | succ f ih =>
    intro xs h
    cases xs with
    | nil =>
      rw [chunksOfFuel_nil]
      simp only [List.length_nil]
      symm
      exact Nat.div_eq_of_lt (by omega)
    | cons x xs =>
      rw [chunksOfFuel_cons, List.length_cons, ih _ ?hfuel]
      case hfuel =>
        rw [List.length_drop]
        simp only [List.length_cons] at h ⊢
        omega
      rw [List.length_drop]
      have hL : 0 < (x :: xs).length := by simp
      rw [ceilDiv_succ _ b hb hL]
      congr 1
      by_cases hcase : b ≤ (x :: xs).length
      · have heq : (x :: xs).length - b + b - 1 = (x :: xs).length - 1 := by
          simp only [List.length_cons] at hcase ⊢
          omega
        rw [heq]
      · have h0 : (x :: xs).length - b = 0 := by
          simp only [List.length_cons] at hcase ⊢
          omega
        rw [h0]
        simp only [Nat.zero_add]
        rw [Nat.div_eq_of_lt (by simp only [List.length_cons] at hcase ⊢; omega),
          Nat.div_eq_of_lt (by omega)]

lemma chunksOfFuel_mem (b : Nat) (hb : 0 < b) :
    ∀ (f : Nat) (xs : List α), xs.length ≤ f →
      ∀ c ∈ chunksOfFuel b f xs, c.length ≤ b ∧ c ≠ [] := by
  intro f
  induction f with
  | zero =>
    intro xs h
    have hxs : xs = [] := List.length_eq_zero.mp (Nat.le_zero.mp h)
    subst hxs
    simp [chunksOfFuel_nil]
  | succ f ih =>
    intro xs h c hc
    cases xs with
    | nil => rw [chunksOfFuel_nil] at hc; cases hc
    | cons x xs =>
      rw [chunksOfFuel_cons] at hc
      rcases List.mem_cons.mp hc with hhead | htail
      · subst hhead
        refine ⟨by rw [List.length_take]; exact Nat.min_le_left _ _, ?_⟩
        apply List.length_pos.mp
        rw [List.length_take]
        simp only [List.length_cons]
        omega
      · refine ih _ ?_ c htail
        rw [List.length_drop]
        simp only [List.length_cons] at h ⊢
        omega

lemma chunksOfFuel_ne_nil (b : Nat) (f : Nat) (x : α) (xs : List α)
    (h : (x :: xs).length ≤ f) : chunksOfFuel b f (x :: xs) ≠ [] := by
  cases f with
  | zero => simp at h
  | succ f => rw [chunksOfFuel_cons]; exact List.cons_ne_nil _ _

lemma chunksOfFuel_dropLast (b : Nat) (hb : 0 < b) :
    ∀ (f : Nat) (xs : List α), xs.length ≤ f →
      ∀ c ∈ (chunksOfFuel b f xs).dropLast, c.length = b := by
  intro f
  induction f with
  | zero =>
    intro xs h
    have hxs : xs = [] := List.length_eq_zero.mp (Nat.le_zero.mp h)
    subst hxs
    simp [chunksOfFuel_nil]
  | succ f ih =>
    intro xs h c hc
    cases xs with
    | nil => rw [chunksOfFuel_nil] at hc; cases hc
    | cons x xs =>
      rw [chunksOfFuel_cons] at hc
      have hfuel : ((x :: xs).drop b).length ≤ f := by
        rw [List.length_drop]
        simp only [List.length_cons] at h ⊢
        omega
      by_cases hdrop : (x :: xs).drop b = []
      · rw [hdrop, chunksOfFuel_nil] at hc
        simp only [List.dropLast_single] at hc
        cases hc
      · have htail : chunksOfFuel b f ((x :: xs).drop b) ≠ [] := by
          obtain ⟨y, ys, hys⟩ := List.exists_cons_of_ne_nil hdrop
          rw [hys] at hfuel ⊢
          exact chunksOfFuel_ne_nil b f y ys hfuel
        obtain ⟨z, zs, hzs⟩ := List.exists_cons_of_ne_nil htail
        rw [hzs, List.dropLast_cons₂] at hc
        rcases List.mem_cons.mp hc with hhead | htl
        · subst hhead
          have hpos : 0 < ((x :: xs).drop b).length := List.length_pos.mpr hdrop
          rw [List.length_drop] at hpos
          rw [List.length_take]
          simp only [List.length_cons] at hpos ⊢
          omega
        · have hrec := ih ((x :: xs).drop b) hfuel c
          rw [hzs] at hrec
          exact hrec htl

lemma chunksOf_flatten (b : Nat) (hb : 0 < b) (xs : List α) :
    (chunksOf b xs).flatten = xs :=
  chunksOfFuel_flatten b hb xs.length xs le_rfl

lemma chunksOf_length (b : Nat) (hb : 0 < b) (xs : List α) :
    (chunksOf b xs).length = (xs.length + b - 1) / b :=
  chunksOfFuel_length b hb xs.length xs le_rfl

lemma chunksOf_mem (b : Nat) (hb : 0 < b) (xs : List α) :
    ∀ c ∈ chunksOf b xs, c.length ≤ b ∧ c ≠ [] :=
  chunksOfFuel_mem b hb xs.length xs le_rfl

lemma chunksOf_dropLast (b : Nat) (hb : 0 < b) (xs : List α) :
    ∀ c ∈ (chunksOf b xs).dropLast, c.length = b :=
  chunksOfFuel_dropLast b hb xs.length xs le_rfl

/-! ### Lemmas about column reconciliation -/

lemma lookupLast_eq_none_iff (key : String) :
    ∀ l : List String, lookupLast key l = none ↔ ∀ c ∈ l, (lower c) ≠ key := by
  intro l
  induction l with
  | nil => simp [lookupLast]
  | cons c cs ih =>
    cases h : lookupLast key cs with
    | some f =>
      have hl : lookupLast key (c :: cs) = some f := by simp [lookupLast, h]
      rw [hl]
      constructor
      · intro hx; cases hx
      · intro hall
        exfalso
        have h2 := (ih).mpr fun x hx => hall x (List.mem_cons_of_mem _ hx)
        rw [h] at h2
        cases h2
    | none =>
      by_cases hc : (lower c) = key
      · have hl : lookupLast key (c :: cs) = some c := by simp [lookupLast, h, hc]
        rw [hl]
        constructor
        · intro hx; cases hx
        · intro hall; exact absurd hc (hall c (List.mem_cons_self c cs))
      · have hl : lookupLast key (c :: cs) = none := by simp [lookupLast, h, hc]
        rw [hl]
        simp only [true_iff, List.mem_cons]
        intro x hx
        rcases hx with rfl | hx
        · exact hc
        · exact (ih.mp h) x hx

lemma lookupLast_mem (key : String) :
    ∀ l : List String, ∀ f, lookupLast key l = some f → f ∈ l ∧ (lower f) = key := by
  intro l
  induction l with
  | nil => intro f h; cases h
  | cons c cs ih =>
    intro f
    cases h : lookupLast key cs with
    | some g =>
      have hl : lookupLast key (c :: cs) = some g := by simp [lookupLast, h]
      rw [hl]
      intro hgf
      obtain ⟨hm, hk⟩ := ih g h
      injection hgf with hgf2
      subst hgf2
      exact ⟨List.mem_cons_of_mem _ hm, hk⟩
    | none =>
      by_cases hc : (lower c) = key
      · have hl : lookupLast key (c :: cs) = some c := by simp [lookupLast, h, hc]
        rw [hl]
        intro hcf
        injection hcf with hcf2
        subst hcf2
        exact ⟨List.mem_cons_self c cs, hc⟩
      · have hl : lookupLast key (c :: cs) = none := by simp [lookupLast, h, hc]
        rw [hl]
        intro hx; cases hx

lemma lookupLast_eq_self (l : List String) (hnd : (l.map lower).Nodup) :
    ∀ x ∈ l, lookupLast (lower x) l = some x := by
  induction l with
  | nil => simp
  | cons c cs ih =>
    intro x hx
    simp only [List.map_cons, List.nodup_cons] at hnd
    obtain ⟨hnot, hnd2⟩ := hnd
    rcases List.mem_cons.mp hx with rfl | hxs
    · have hnone : lookupLast (lower x) cs = none := by
        rw [lookupLast_eq_none_iff]
        intro y hy hcon
        exact hnot (hcon ▸ List.mem_map_of_mem _ hy)
      simp [lookupLast, hnone]
    · have hsome := ih hnd2 x hxs
      simp [lookupLast, hsome]

/-- With a case-insensitively duplicate-free CSV header, the lookup-then-
select done by `insert_chunk` computes exactly the case-insensitive field
value `valueCI`. -/
lemma lookup_colValue (cc : List String) :
    ∀ (r : Row) (t : String), (cc.map lower).Nodup →
      (match lookupLast (lower t) cc with
       | some f => colValue cc r f
       | none => none) = valueCI cc r t := by
  induction cc with
  | nil =>
    intro r t _
    simp [lookupLast, valueCI]
  | cons c cs ih =>
    intro r t hnd
    simp only [List.map_cons, List.nodup_cons] at hnd
    obtain ⟨hnot, hnd2⟩ := hnd
    cases r with
    | nil =>
      cases h : lookupLast (lower t) (c :: cs) <;> simp [valueCI, colValue]
    | cons v vs =>
      by_cases hct : (lower c) = (lower t)
      · have hnone : lookupLast (lower t) cs = none := by
          rw [lookupLast_eq_none_iff]
          intro y hy hcon
          refine hnot ?_
          rw [← hct] at hcon
          exact hcon ▸ List.mem_map_of_mem _ hy
        have hl : lookupLast (lower t) (c :: cs) = some c := by
          simp [lookupLast, hnone, hct]
        rw [hl]
        simp [colValue, valueCI, hct]
      · have heq : lookupLast (lower t) (c :: cs) = lookupLast (lower t) cs := by
          cases h : lookupLast (lower t) cs with
          | some f => simp [lookupLast, h]
          | none => simp [lookupLast, h, hct]
        rw [heq]
        cases h : lookupLast (lower t) cs with
        | none =>
          have hrec := ih vs t hnd2
          rw [h] at hrec
          simp [valueCI, hct, ← hrec]
        | some f =>
          obtain ⟨hfm, hfl⟩ := lookupLast_mem _ cs f h
          have hfc : c ≠ f := by
            intro hcf
            exact hct (by rw [hcf, hfl])
          have hrec := ih vs t hnd2
          rw [h] at hrec
          simp only [colValue, if_neg hfc, valueCI, if_neg hct]
          exact hrec

/-- Under a case-insensitively duplicate-free header, `insert_chunk`'s row
reordering agrees with the spec's case-insensitive mapping: position `j` of
the output holds the value of the source field matching target column `j`
up to case. -/
lemma reorderRow_eq_spec (tc cc : List String)
    (hnd : (cc.map lower).Nodup) (r : Row) :
    reorderRow tc cc r = tc.map fun t => valueCI cc r t := by
  have hfun : (fun t =>
      (match lookupLast (lower t) cc with
       | some f => colValue cc r f
       | none => none)) = fun t => valueCI cc r t :=
    funext fun t => lookup_colValue cc r t hnd
  rw [reorderRow]
  rw [show (fun t =>
      match lookupLast (lower t) cc with
      | some f => colValue cc r f
      | none => none) = fun t => valueCI cc r t from hfun]

lemma missingList_eq_nil (tc cc : List String)
    (h : ∀ t ∈ tc, ∃ f ∈ cc, (lower f) = (lower t)) : missingList tc cc = [] := by
  rw [missingList]
  apply List.filter_eq_nil_iff.mpr
  intro t ht hcon
  rw [Option.isNone_iff_eq_none] at hcon
  obtain ⟨f, hf, hfl⟩ := h t ht
  exact ((lookupLast_eq_none_iff _ _).mp hcon) f hf hfl

lemma extraList_eq_nil (tc cc : List String)
    (h : ∀ f ∈ cc, ∃ t ∈ tc, (lower t) = (lower f)) : extraList tc cc = [] := by
  rw [extraList]
  apply List.filter_eq_nil_iff.mpr
  intro c hc hall
  rw [List.all_eq_true] at hall
  obtain ⟨t, ht, htl⟩ := h c hc
  exact (bne_iff_ne.mp (hall t ht)) htl

/-- When every target column has a case-insensitive match in the header and
vice versa, `insert_chunk` validates and inserts the reordered rows. -/
lemma insert_chunk_ok (tc cc : List String)
    (hm : ∀ t ∈ tc, ∃ f ∈ cc, (lower f) = (lower t))
    (he : ∀ f ∈ cc, ∃ t ∈ tc, (lower t) = (lower f)) (rows : List Row) :
    insert_chunk tc cc rows = .ok (rows.map (reorderRow tc cc)) := by
  rw [insert_chunk, missingList_eq_nil tc cc hm, extraList_eq_nil tc cc he]
  simp

/-- When the CSV header equals the target column list, validation always
passes (every column matches itself). -/
lemma insert_chunk_self (tc : List String) (rows : List Row) :
    insert_chunk tc tc rows = .ok (rows.map (reorderRow tc tc)) :=
  insert_chunk_ok tc tc (fun t ht => ⟨t, ht, rfl⟩) (fun f hf => ⟨f, hf, rfl⟩) rows

/-- Reordering a row against its own column list is the identity (given
case-insensitively duplicate-free columns and a row of matching width). -/
lemma reorderRow_self (tc : List String) (hnd : (tc.map lower).Nodup)
    (r : Row) (hlen : r.length = tc.length) : reorderRow tc tc r = r := by
  rw [reorderRow_eq_spec tc tc hnd r]
  induction tc generalizing r with
  | nil =>
    have : r = [] := List.length_eq_zero.mp hlen
    subst this
    rfl
  | cons c cs ih =>
    simp only [List.map_cons, List.nodup_cons] at hnd
    obtain ⟨hnot, hnd2⟩ := hnd
    cases r with
    | nil => simp at hlen
    | cons v vs =>
      simp only [List.length_cons] at hlen
      have hlen2 : vs.length = cs.length := by omega
      simp only [List.map_cons]
      congr 1
      · simp [valueCI]
      · have hpt : ∀ t ∈ cs, valueCI (c :: cs) (v :: vs) t = valueCI cs vs t := by
          intro t ht
          have hct : (lower c) ≠ (lower t) := by
            intro hcon
            exact hnot (hcon ▸ List.mem_map_of_mem _ ht)
          simp [valueCI, hct]
        rw [List.map_congr_left hpt]
        exact ih hnd2 vs hlen2

/-! ### Lemmas about the load_single.py loop -/

lemma attachFails_zero (fails : Nat → Nat) (hz : ∀ i, fails i = 0) :
    ∀ (i : Nat) (cs : List (List RawRow)),
      attachFails fails i cs = cs.map fun c => (0, c) := by
  intro i cs
  induction cs generalizing i with
  | nil => rfl
  | cons c rest ih => simp [attachFails, hz i, ih (i + 1)]

/-- A successful chunk iteration (insert validates, at most `m` transient
failures): `pending_chunks` is bumped and a commit happens exactly when it
reaches `commit_every`; a reconnect (`f > 0`) silently drops the
uncommitted rows of the replaced session. -/
lemma runChunk_ok (m ce : Nat) (tc cc : List String) (f : Nat) (hf : f ≤ m)
    (c : List RawRow) (rows : List Row)
    (hins : insert_chunk tc cc (normalize_df c) = .ok rows) (s : LoopState) :
    runChunk m ce tc cc f c s =
      if ce ≤ s.pending + 1 then
        (⟨s.committed ++ ((if f = 0 then s.pendingRows else []) ++ rows), [], 0,
          s.total + c.length⟩, none)
      else
        (⟨s.committed, (if f = 0 then s.pendingRows else []) ++ rows,
          s.pending + 1, s.total + c.length⟩, none) := by
  rw [runChunk, hins]
  dsimp only
  rw [if_neg (Nat.not_lt.mpr hf)]

/-- A chunk whose insert hits more than `max_retries` consecutive transient
failures re-raises: the run state keeps only the committed rows. -/
lemma runChunk_exhausted (m ce : Nat) (tc cc : List String) (f : Nat)
    (hf : m < f) (c : List RawRow) (rows : List Row)
    (hins : insert_chunk tc cc (normalize_df c) = .ok rows) (s : LoopState) :
    runChunk m ce tc cc f c s
      = (⟨s.committed, [], s.pending, s.total⟩, some .retriesExhausted) := by
  rw [runChunk, hins]
  dsimp only
  rw [if_pos hf]

/-- A `ValueError` from the reconciliation check aborts the chunk loop with
no insert attempted for that batch. -/
lemma runChunk_schema_err (m ce : Nat) (tc cc : List String) (f : Nat)
    (c : List RawRow) (e : LoadErr)
    (hins : insert_chunk tc cc (normalize_df c) = .error e) (s : LoopState) :
    runChunk m ce tc cc f c s = (⟨s.committed, [], s.pending, s.total⟩, some e) := by
  rw [runChunk, hins]

lemma runChunks_cons_ok (m ce : Nat) (tc cc : List String) (f : Nat)
    (c : List RawRow) (rest : List (Nat × List RawRow)) (s s1 : LoopState)
    (hstep : runChunk m ce tc cc f c s = (s1, none)) :
    runChunks m ce tc cc ((f, c) :: rest) s = runChunks m ce tc cc rest s1 := by
  rw [runChunks, hstep]

lemma runChunks_cons_err (m ce : Nat) (tc cc : List String) (f : Nat)
    (c : List RawRow) (rest : List (Nat × List RawRow)) (s s1 : LoopState)
    (e : LoadErr) (hstep : runChunk m ce tc cc f c s = (s1, some e)) :
    runChunks m ce tc cc ((f, c) :: rest) s = (s1, some e) := by
  rw [runChunks, hstep]

/-- Failure-free run of the chunk loop with the CSV header equal to the
target columns: every chunk is inserted in order and the loop never errors;
committed-plus-pending rows grow by exactly the normalized chunk rows, and
`total_inserted` by the raw row count. -/
lemma runChunks_noFail (m ce : Nat) (tc : List String)
    (hnd : (tc.map lower).Nodup) :
    ∀ (chunks : List (List RawRow)) (s : LoopState),
      (∀ c ∈ chunks, ∀ r ∈ c, r.length = tc.length) →
      (s.pending = 0 → s.pendingRows = []) →
      ∃ s1, runChunks m ce tc tc (chunks.map fun c => (0, c)) s = (s1, none)
        ∧ s1.committed ++ s1.pendingRows
            = s.committed ++ (s.pendingRows ++ normalize_df chunks.flatten)
        ∧ s1.total = s.total + chunks.flatten.length
        ∧ (s1.pending = 0 → s1.pendingRows = []) := by
  intro chunks
  induction chunks with
  | nil =>
    intro s _ hinv
    exact ⟨s, rfl, by simp [normalize_df], by simp, hinv⟩
  | cons c rest ih =>
    intro s hlen hinv
    have hmap : (normalize_df c).map (reorderRow tc tc) = normalize_df c := by
      have hpt : ∀ r1 ∈ normalize_df c, reorderRow tc tc r1 = id r1 := by
        intro r1 hr1
        obtain ⟨r, hr, rfl⟩ := List.mem_map.mp hr1
        exact reorderRow_self tc hnd (normalizeRow r)
          (by rw [normalizeRow, List.length_map]
              exact hlen c (List.mem_cons_self c rest) r hr)
      rw [List.map_congr_left hpt, List.map_id]
    have hins : insert_chunk tc tc (normalize_df c) = .ok (normalize_df c) := by
      rw [insert_chunk_self tc (normalize_df c), hmap]
    have hlen2 : ∀ c1 ∈ rest, ∀ r ∈ c1, r.length = tc.length :=
      fun c1 hc1 => hlen c1 (List.mem_cons_of_mem _ hc1)
    have hstep := runChunk_ok m ce tc tc 0 (Nat.zero_le m) c _ hins s
    rw [if_pos rfl] at hstep
    by_cases hce : ce ≤ s.pending + 1
    · rw [if_pos hce] at hstep
      obtain ⟨s1, hrun, hcomm, htot, hinv1⟩ :=
        ih ⟨s.committed ++ (s.pendingRows ++ normalize_df c), [], 0,
            s.total + c.length⟩ hlen2 (fun _ => rfl)
      refine ⟨s1, ?_, ?_, ?_, hinv1⟩
      · rw [List.map_cons, runChunks_cons_ok m ce tc tc 0 c _ s _ hstep]
        exact hrun
      · rw [hcomm]
        simp [normalize_df, List.flatten_cons, List.append_assoc]
      · rw [htot]
        simp only [List.flatten_cons, List.length_append]
        omega
    · rw [if_neg hce] at hstep
      obtain ⟨s1, hrun, hcomm, htot, hinv1⟩ :=
        ih ⟨s.committed, s.pendingRows ++ normalize_df c, s.pending + 1,
            s.total + c.length⟩ hlen2 (by intro h0; cases h0)
      refine ⟨s1, ?_, ?_, ?_, hinv1⟩
      · rw [List.map_cons, runChunks_cons_ok m ce tc tc 0 c _ s _ hstep]
        exact hrun
      · rw [hcomm]
        simp [normalize_df, List.flatten_cons, List.append_assoc]
      · rw [htot]
        simp only [List.flatten_cons, List.length_append]
        omega

/-! ### Claim theorems: reader, resume, truncate-vs-resume -/

/-- C8: Batch partition and order preservation. For a source file with
data rows `rows` and any skip offset, the reader yields
`ceil(R/B)` batches whose concatenation equals the post-skip data rows in
file order, each batch of size `B` except possibly the last (which is
nonempty and no larger than `B`): no reordering, no duplication. -/
theorem reader_partition (B skip : Nat) (hB : 0 < B) (rows : List RawRow) :
    (chunksOf B (rows.drop skip)).flatten = rows.drop skip
    ∧ (chunksOf B (rows.drop skip)).length = ((rows.drop skip).length + B - 1) / B
    ∧ (∀ c ∈ (chunksOf B (rows.drop skip)).dropLast, c.length = B)
    ∧ (∀ c ∈ chunksOf B (rows.drop skip), c.length ≤ B ∧ c ≠ []) :=
  ⟨chunksOf_flatten B hB _, chunksOf_length B hB _,
   chunksOf_dropLast B hB _, chunksOf_mem B hB _⟩

/-- Witness for C8 at a concrete input: five data rows, skip 1, batch size
2 give two batches flattening back to the skipped file. -/
theorem reader_partition_witness :
    (chunksOf 2 (([["a"], ["b"], ["c"], ["d"], ["e"]] : List RawRow).drop 1)).flatten
        = ([["a"], ["b"], ["c"], ["d"], ["e"]] : List RawRow).drop 1
    ∧ (chunksOf 2 (([["a"], ["b"], ["c"], ["d"], ["e"]] : List RawRow).drop 1)).length = 2 :=
  ⟨(reader_partition 2 1 (by decide) [["a"], ["b"], ["c"], ["d"], ["e"]]).1,
   ((reader_partition 2 1 (by decide) [["a"], ["b"], ["c"], ["d"], ["e"]]).2.1).trans (by rfl)⟩

/-- C7: Truncate disables resume. When both the truncate and the resume
flag are set, the truncation is committed before the resume accounting, so
the computed skip offset is the row count of the now-empty table, namely 0,
and the run is identical to a non-resume load into an empty table — it
starts from the first data row of the file. -/
theorem truncate_disables_resume (m ce B : Nat) (tc cc : List String)
    (target : List Row) (fileRows : List RawRow) (fails : Nat → Nat) :
    (singleLoad m ce B true true tc cc target fileRows fails).skipUsed = 0
    ∧ singleLoad m ce B true true tc cc target fileRows fails
        = singleLoad m ce B false false tc cc [] fileRows fails :=
  ⟨rfl, rfl⟩

/-- C1: Resume correctness. If a first run committed exactly the first `K`
data rows (normalized) and nothing else touched the target, a resumed run
computes skip offset `K` from the target's row count, inserts exactly the
remaining `Total − K` rows without error, and afterwards the target holds
exactly the file's data rows in order — no duplicates, no gaps. -/
theorem resume_correct (m ce B K : Nat) (hB : 0 < B) (tc : List String)
    (hnd : (tc.map lower).Nodup) (rows : List RawRow)
    (hK : K ≤ rows.length) (hlen : ∀ r ∈ rows, r.length = tc.length) :
    singleLoad m ce B false true tc tc (normalize_df (rows.take K)) rows
        (fun _ => 0)
      = ⟨normalize_df rows, rows.length - K, K, none⟩ := by
  have hskip : (normalize_df (rows.take K)).length = K := by
    rw [normalize_df, List.length_map, List.length_take]
    omega
  have hmem : ∀ c ∈ chunksOf B (rows.drop K), ∀ r ∈ c, r.length = tc.length := by
    intro c hc r hr
    apply hlen
    have hfl : r ∈ (chunksOf B (rows.drop K)).flatten :=
      List.mem_flatten.mpr ⟨c, hc, hr⟩
    rw [chunksOf_flatten B hB] at hfl
    exact List.drop_subset K rows hfl
  obtain ⟨s1, hrun, hcomm, htot, hinv⟩ :=
    runChunks_noFail m ce tc hnd (chunksOf B (rows.drop K))
      ⟨normalize_df (rows.take K), [], 0, 0⟩ hmem (fun _ => rfl)
  simp only [singleLoad, Bool.false_eq_true, if_false, if_true]
  rw [hskip, attachFails_zero (fun _ => 0) (fun _ => rfl) 0
      (chunksOf B (rows.drop K)), hrun]
  have hfin : (if 0 < s1.pending then s1.committed ++ s1.pendingRows
      else s1.committed) = s1.committed ++ s1.pendingRows := by
    by_cases hp : 0 < s1.pending
    · rw [if_pos hp]
    · rw [if_neg hp, hinv (by omega), List.append_nil]
  rw [hfin]
  simp only [SingleOutcome.mk.injEq]
  refine ⟨?_, ?_, trivial, trivial⟩
  · rw [hcomm, chunksOf_flatten B hB]
    simp only [List.nil_append, normalize_df, ← List.map_append,
      List.take_append_drop]
  · rw [htot, chunksOf_flatten B hB]
    simp only [List.length_drop]
    omega

/-- Witness for C1: a three-row file whose first row was already committed
by the interrupted first run; the resumed run skips 1 row, inserts 2, and
the target ends up holding all three rows in order. -/
theorem resume_correct_witness :
    singleLoad 0 1 2 false true ["a"] ["a"]
        (normalize_df (([["x"], ["y"], ["z"]] : List RawRow).take 1))
        [["x"], ["y"], ["z"]] (fun _ => 0)
      = ⟨normalize_df [["x"], ["y"], ["z"]], 2, 1, none⟩ :=
  resume_correct 0 1 2 1 (by decide) ["a"] (by decide) [["x"], ["y"], ["z"]]
    (by decide) (by decide)

/-! ### Claim theorems: retry bound, transient loss, commit cadence -/

lemma insert_chunk_length (tc cc : List String) (rs rows : List Row)
    (h : insert_chunk tc cc rs = .ok rows) : rows.length = rs.length := by
  rw [insert_chunk] at h
  by_cases h1 : missingList tc cc ≠ []
  · rw [if_pos h1] at h; cases h
  · rw [if_neg h1] at h
    by_cases h2 : extraList tc cc ≠ []
    · rw [if_pos h2] at h; cases h
    · rw [if_neg h2] at h
      injection h with h3
      rw [← h3, List.length_map]

/-- C2 counterexample: with `max_retries = 1`, a batch whose insert raises a
transient error on exactly `max_retries = 1` consecutive attempts does NOT
stop the run — the batch is retried once more, succeeds, and the run
finishes with no error and the batch committed; the claimed
RetriesExhausted outcome does not occur. -/
theorem retry_bound_counterexample :
    singleLoad 1 1 1 false false ["a"] ["a"] [] [["x"]] (fun _ => 1)
      = ⟨[[some "x"]], 1, 0, none⟩ := by decide

/-- C2 (amended): the run stops with RetriesExhausted only after
`max_retries + 1` consecutive transient failures on one batch (the initial
attempt plus `max_retries` retries, i.e. `m < f`); when it stops, the loop
aborts — no later chunk is processed — and the target keeps exactly the
rows committed before that batch: none of the failed batch's rows are
present (no partial commit). -/
theorem retry_bound (m ce : Nat) (tc cc : List String) (f : Nat) (hf : m < f)
    (c : List RawRow) (rows : List Row)
    (hins : insert_chunk tc cc (normalize_df c) = .ok rows)
    (rest : List (Nat × List RawRow)) (s : LoopState) :
    runChunks m ce tc cc ((f, c) :: rest) s
      = (⟨s.committed, [], s.pending, s.total⟩, some .retriesExhausted) :=
  runChunks_cons_err m ce tc cc f c rest s _ _
    (runChunk_exhausted m ce tc cc f hf c rows hins s)

/-- Witness for the amended C2: `max_retries = 1`, a batch failing 2
consecutive times exhausts the retries; the run stops and the target still
holds only the previously committed row. -/
theorem retry_bound_witness :
    runChunks 1 5 ["a"] ["a"] [(2, [["x"]]), (0, [["y"]])]
        ⟨[[some "w"]], [], 0, 3⟩
      = (⟨[[some "w"]], [], 0, 3⟩, some .retriesExhausted) :=
  retry_bound 1 5 ["a"] ["a"] 2 (by decide) [["x"]] [[some "x"]] (by decide)
    [(0, [["y"]])] ⟨[[some "w"]], [], 0, 3⟩

/-- C3: evaluation of the code at the failing input. With commit cadence 2
and a transient failure on chunk 2 that is recovered within the retry
ceiling (so the run reports success, `err = none`), the target ends up with
only row `y`: chunk 1's rows, inserted but not yet committed when the
connection was replaced, are silently lost, while a failure-free run of the
same input persists both rows — and `total_inserted` still reports 2. -/
theorem transient_recovery_loses_rows :
    (singleLoad 1 2 1 false false ["a"] ["a"] [] [["x"], ["y"]]
        (fun i => if i = 1 then 1 else 0)).err = none
    ∧ (singleLoad 1 2 1 false false ["a"] ["a"] [] [["x"], ["y"]]
        (fun i => if i = 1 then 1 else 0)).committed = [[some "y"]]
    ∧ (singleLoad 1 2 1 false false ["a"] ["a"] [] [["x"], ["y"]]
        (fun _ => 0)).committed = [[some "x"], [some "y"]]
    ∧ (singleLoad 1 2 1 false false ["a"] ["a"] [] [["x"], ["y"]]
        (fun i => if i = 1 then 1 else 0)).total = 2 := by
  refine ⟨?_, ?_, ?_, ?_⟩ <;> decide

/-- Invariant of the chunk loop: starting from a fresh session state, at
every loop boundary `pending_chunks + 1 ≤ K` and the uncommitted rows
number at most `pending_chunks * B`, for any failure schedule. -/
lemma runChunks_cadence_inv (m K B : Nat) (hK : 1 ≤ K) (tc cc : List String) :
    ∀ (fcs : List (Nat × List RawRow)) (s : LoopState),
      (∀ p ∈ fcs, p.2.length ≤ B) →
      s.pending + 1 ≤ K → s.pendingRows.length ≤ s.pending * B →
      (runChunks m K tc cc fcs s).1.pending + 1 ≤ K
      ∧ (runChunks m K tc cc fcs s).1.pendingRows.length
          ≤ (runChunks m K tc cc fcs s).1.pending * B := by
  intro fcs
  induction fcs with
  | nil => intro s _ h1 h2; exact ⟨h1, h2⟩
  | cons p rest ih =>
    intro s hsz h1 h2
    obtain ⟨f, c⟩ := p
    cases hins : insert_chunk tc cc (normalize_df c) with
    | error e =>
      rw [runChunks_cons_err m K tc cc f c rest s _ e
        (runChunk_schema_err m K tc cc f c e hins s)]
      exact ⟨h1, by simp⟩
    | ok rows =>
      have hclen : rows.length ≤ B := by
        rw [insert_chunk_length tc cc _ rows hins, normalize_df, List.length_map]
        exact hsz (f, c) (List.mem_cons_self _ _)
      by_cases hf : f ≤ m
      · have hstep := runChunk_ok m K tc cc f hf c rows hins s
        by_cases hce : K ≤ s.pending + 1
        · rw [if_pos hce] at hstep
          rw [runChunks_cons_ok m K tc cc f c rest s _ hstep]
          exact ih _ (fun p hp => hsz p (List.mem_cons_of_mem _ hp))
            (by show 0 + 1 ≤ K; omega) (by simp)
        · rw [if_neg hce] at hstep
          rw [runChunks_cons_ok m K tc cc f c rest s _ hstep]
          refine ih _ (fun p hp => hsz p (List.mem_cons_of_mem _ hp))
            (by show s.pending + 1 + 1 ≤ K; omega) ?_
          show ((if f = 0 then s.pendingRows else []) ++ rows).length
            ≤ (s.pending + 1) * B
          rw [List.length_append]
          have hpr : (if f = 0 then s.pendingRows else []).length
              ≤ s.pending * B := by
            by_cases hf0 : f = 0
            · rw [if_pos hf0]; exact h2
            · rw [if_neg hf0]; simp
          have hsum := Nat.add_le_add hpr hclen
          rw [Nat.succ_mul]
          exact hsum
      · have hstep := runChunk_exhausted m K tc cc f (Nat.not_le.mp hf) c rows hins s
        rw [runChunks_cons_err m K tc cc f c rest s _ _ hstep]
        exact ⟨h1, by simp⟩

/-- C4: Commit-cadence invariant and loss bound. First: on every successful
batch insert the pending counter is incremented, and a commit is issued
exactly when it reaches `K`, resetting it to zero (if it stays below `K`,
nothing is committed). Second: starting a table load with cadence `K` and
chunks of at most `B` rows, at every point between batch iterations the
pending counter is at most `K − 1` and at most `(K − 1) × B` inserted rows
are uncommitted — exactly the rows a crash between commits can lose, and
they are never in the committed list. -/
theorem commit_cadence (m K B : Nat) (hK : 1 ≤ K) (tc cc : List String) :
    (∀ (s : LoopState) (f : Nat) (c : List RawRow) (rows : List Row),
      insert_chunk tc cc (normalize_df c) = .ok rows → f ≤ m →
      ((s.pending + 1 = K →
         runChunk m K tc cc f c s
           = (⟨s.committed ++ ((if f = 0 then s.pendingRows else []) ++ rows),
               [], 0, s.total + c.length⟩, none))
       ∧ (s.pending + 1 < K →
         runChunk m K tc cc f c s
           = (⟨s.committed, (if f = 0 then s.pendingRows else []) ++ rows,
               s.pending + 1, s.total + c.length⟩, none))))
    ∧ (∀ (fcs : List (Nat × List RawRow)) (target : List Row),
      (∀ p ∈ fcs, p.2.length ≤ B) →
      (runChunks m K tc cc fcs ⟨target, [], 0, 0⟩).1.pending ≤ K - 1
      ∧ (runChunks m K tc cc fcs ⟨target, [], 0, 0⟩).1.pendingRows.length
          ≤ (K - 1) * B) := by
  constructor
  · intro s f c rows hins hf
    have hstep := runChunk_ok m K tc cc f hf c rows hins s
    constructor
    · intro heq
      rw [hstep, if_pos (by omega)]
    · intro hlt
      rw [hstep, if_neg (by omega)]
  · intro fcs target hsz
    obtain ⟨h1, h2⟩ := runChunks_cadence_inv m K B hK tc cc fcs
      ⟨target, [], 0, 0⟩ hsz (by show 0 + 1 ≤ K; omega) (by simp)
    refine ⟨by omega, le_trans h2 (Nat.mul_le_mul_right B (by omega))⟩

/-- Witness for C4 with cadence 2, batch size 1: a second successful batch
commits and resets the counter, and after one batch the uncommitted rows
are within the `(K − 1) × B = 1` bound. -/
theorem commit_cadence_witness :
    (runChunk 0 2 ["a"] ["a"] 0 [["x"]] ⟨[], [], 1, 1⟩
        = (⟨[] ++ ((if 0 = 0 then ([] : List Row) else []) ++ [[some "x"]]),
            [], 0, 1 + [["x"]].length⟩, none))
    ∧ (runChunks 0 2 ["a"] ["a"] [(0, [["x"]])] ⟨[], [], 0, 0⟩).1.pendingRows.length
        ≤ (2 - 1) * 1 :=
  ⟨((commit_cadence 0 2 1 (by decide) ["a"] ["a"]).1 ⟨[], [], 1, 1⟩ 0 [["x"]]
      [[some "x"]] (by decide) (by decide)).1 rfl,
   ((commit_cadence 0 2 1 (by decide) ["a"] ["a"]).2 [(0, [["x"]])] []
      (by decide)).2⟩

/-! ### Claim theorems: case-insensitive reconciliation -/

/-- C5: Case-insensitive reconciliation. If the CSV header is, up to letter
case, exactly a permutation of the target columns (and case-insensitively
duplicate-free), reconciliation succeeds and every row is reordered to
target column order, position `j` holding the value of the source field
that matches target column `j` up to case (`valueCI`). If some target
column has no case-insensitive match among the source fields,
reconciliation fails with a `ValueError` naming exactly the missing target
columns, and no insert is attempted for the batch (an `error` result,
never `ok`). -/
theorem reconcile_case_insensitive (tc cc : List String) (rows : List Row) :
    ((cc.map lower).Nodup → (tc.map lower).Perm (cc.map lower) →
      insert_chunk tc cc rows
        = .ok (rows.map fun r => tc.map fun t => valueCI cc r t))
    ∧ (∀ t0 ∈ tc, (∀ f ∈ cc, lower f ≠ lower t0) →
      missingList tc cc ≠ []
      ∧ insert_chunk tc cc rows
          = .error (.missingColumns (missingList tc cc))) := by
  constructor
  · intro hnd hperm
    have hm : ∀ t ∈ tc, ∃ f ∈ cc, lower f = lower t := by
      intro t ht
      have hmem : lower t ∈ cc.map lower :=
        hperm.mem_iff.mp (List.mem_map_of_mem _ ht)
      obtain ⟨f, hf, hfl⟩ := List.mem_map.mp hmem
      exact ⟨f, hf, hfl⟩
    have he : ∀ f ∈ cc, ∃ t ∈ tc, lower t = lower f := by
      intro f hf
      have hmem : lower f ∈ tc.map lower :=
        hperm.mem_iff.mpr (List.mem_map_of_mem _ hf)
      obtain ⟨t, ht, htl⟩ := List.mem_map.mp hmem
      exact ⟨t, ht, htl⟩
    rw [insert_chunk_ok tc cc hm he rows]
    congr 1
    apply List.map_congr_left
    intro r _
    exact reorderRow_eq_spec tc cc hnd r
  · intro t0 ht0 hnone
    have hmem : t0 ∈ missingList tc cc := by
      rw [missingList, List.mem_filter]
      refine ⟨ht0, ?_⟩
      rw [Option.isNone_iff_eq_none, lookupLast_eq_none_iff]
      exact hnone
    have hne : missingList tc cc ≠ [] := by
      intro h
      rw [h] at hmem
      cases hmem
    refine ⟨hne, ?_⟩
    rw [insert_chunk, if_pos hne]

/-- Witness for C5: header `[name, id]` against target `[ID, Name]`
reconciles with the values swapped into target order; target `[id, qty]`
against header `[ID]` fails naming the missing column `qty`. -/
theorem reconcile_case_insensitive_witness :
    insert_chunk ["ID", "Name"] ["name", "id"] [[some "n", some "1"]]
      = .ok [[some "1", some "n"]]
    ∧ insert_chunk ["id", "qty"] ["ID"] [[some "1"]]
      = .error (.missingColumns ["qty"]) :=
  ⟨((reconcile_case_insensitive ["ID", "Name"] ["name", "id"]
      [[some "n", some "1"]]).1 (by decide) (by decide)).trans (by decide),
   (((reconcile_case_insensitive ["id", "qty"] ["ID"] [[some "1"]]).2
      "qty" (by decide) (by decide)).2).trans (by decide)⟩

/-! ### Claim theorems: multi-table loader -/

/-- Unfolding of `load_csv` when the target table exists. -/
lemma load_csv_loop (job : TableJob) (db : DB)
    (hcols : ¬job.tableCols.isEmpty = true) :
    load_csv job db
      = (let s := loadChunksM job.name job.tableCols job.csvCols
            job.commit_every job.failAt 0 (chunksOf job.chunksize job.rows)
            ⟨(if job.truncate then
                commitDB (truncate_table job.truncFails job.name db)
              else db), 0, 0, 0, none⟩
         { s with db :=
            match s.err with
            | some _ => s.db
            | none => if 0 < s.pending then commitDB s.db else s.db }) := by
  rw [load_csv, if_neg hcols]

/-- In a driver-failure-free load whose header equals the target columns,
every chunk iteration executes the reconciliation check once: `checks`
grows by the number of batches and the loop ends without error. -/
lemma loadChunksM_self (name : String) (tc : List String) (K : Nat) :
    ∀ (chunks : List (List RawRow)) (i : Nat) (s : MLoop), s.err = none →
      (loadChunksM name tc tc K none i chunks s).checks = s.checks + chunks.length
      ∧ (loadChunksM name tc tc K none i chunks s).err = none := by
  intro chunks
  induction chunks with
  | nil =>
    intro i s hs
    exact ⟨by simp [loadChunksM], by simp [loadChunksM, hs]⟩
  | cons c rest ih =>
    intro i s hs
    have hins := insert_chunk_self tc (normalize_df c)
    by_cases hce : K ≤ s.pending + 1
    · have hstep : loadChunksM name tc tc K none i (c :: rest) s
          = loadChunksM name tc tc K none (i + 1) rest
              ⟨commitDB ⟨s.db.committed, s.db.uncommitted
                  ++ ((normalize_df c).map (reorderRow tc tc)).map fun r => (name, r)⟩,
               0, s.total + c.length, s.checks + 1, none⟩ := by
        simp only [loadChunksM, hins]
        rw [if_neg (by simp), if_pos hce]
      rw [hstep]
      obtain ⟨hc1, hc2⟩ := ih (i + 1)
        ⟨commitDB ⟨s.db.committed, s.db.uncommitted
            ++ ((normalize_df c).map (reorderRow tc tc)).map fun r => (name, r)⟩,
         0, s.total + c.length, s.checks + 1, none⟩ rfl
      refine ⟨?_, hc2⟩
      rw [hc1]
      simp only [List.length_cons]
      omega
    · have hstep : loadChunksM name tc tc K none i (c :: rest) s
          = loadChunksM name tc tc K none (i + 1) rest
              ⟨⟨s.db.committed, s.db.uncommitted
                  ++ ((normalize_df c).map (reorderRow tc tc)).map fun r => (name, r)⟩,
               s.pending + 1, s.total + c.length, s.checks + 1, none⟩ := by
        simp only [loadChunksM, hins]
        rw [if_neg (by simp), if_neg hce]
      rw [hstep]
      obtain ⟨hc1, hc2⟩ := ih (i + 1)
        ⟨⟨s.db.committed, s.db.uncommitted
            ++ ((normalize_df c).map (reorderRow tc tc)).map fun r => (name, r)⟩,
         s.pending + 1, s.total + c.length, s.checks + 1, none⟩ rfl
      refine ⟨?_, hc2⟩
      rw [hc1]
      simp only [List.length_cons]
      omega

/-- C6 counterexample: a two-batch table load (valid schema, no failures)
executes the reconciliation check twice — once per batch — refuting the
claim that the check is performed exactly once, on the first batch only. -/
theorem check_not_once :
    (load_csv
        { name := "t", tableCols := ["a"], csvCols := ["a"],
          rows := [["x"], ["y"]], chunksize := 1, commit_every := 1,
          truncate := false, truncFails := false, failAt := none }
        ⟨[], []⟩).checks = 2 := by decide

/-- C6 (amended): the reconciliation check inside `insert_chunk` runs on
EVERY batch of a table load, not only the first: in a failure-free load
with a matching header, the number of executed checks equals the number of
batches (and the load succeeds). Since the header is fixed for the file,
each re-run returns the same verdict. -/
theorem check_runs_every_batch (job : TableJob) (db : DB)
    (hcols : ¬job.tableCols.isEmpty = true) (hself : job.csvCols = job.tableCols)
    (hfail : job.failAt = none) :
    (load_csv job db).checks = (chunksOf job.chunksize job.rows).length
    ∧ (load_csv job db).err = none := by
  rw [load_csv_loop job db hcols, hself, hfail]
  obtain ⟨h1, h2⟩ := loadChunksM_self job.name job.tableCols job.commit_every
    (chunksOf job.chunksize job.rows) 0
    ⟨(if job.truncate then commitDB (truncate_table job.truncFails job.name db)
      else db), 0, 0, 0, none⟩ rfl
  exact ⟨h1.trans (Nat.zero_add _), h2⟩

/-- Witness for the amended C6: the two-batch load of `check_not_once`'s
shape runs the check twice and succeeds. -/
theorem check_runs_every_batch_witness :
    (load_csv
        { name := "t", tableCols := ["a"], csvCols := ["a"],
          rows := [["x"], ["y"], ["z"]], chunksize := 2, commit_every := 5,
          truncate := false, truncFails := false, failAt := none }
        ⟨[], []⟩).checks
      = (chunksOf 2 [["x"], ["y"], ["z"]]).length
    ∧ (load_csv
        { name := "t", tableCols := ["a"], csvCols := ["a"],
          rows := [["x"], ["y"], ["z"]], chunksize := 2, commit_every := 5,
          truncate := false, truncFails := false, failAt := none }
        ⟨[], []⟩).err = none :=
  check_runs_every_batch _ ⟨[], []⟩ (by decide) rfl rfl

/-- The `break`-on-failure loop of `load_csvs.py:main`: if every table of
`pre` loads cleanly and table `j` then fails, the whole run stops at `j`
with the transaction rolled back, independently of the tables after `j`. -/
lemma runTables_append_fail (j : TableJob) (post : List TableJob) (e : LoadErr) :
    ∀ (pre : List TableJob) (db db1 : DB) (names : List String),
      runTables pre db = ⟨db1, names, none⟩ →
      (load_csv j db1).err = some e →
      runTables (pre ++ j :: post) db
        = ⟨rollbackDB (load_csv j db1).db, names ++ [j.name],
            some (j.name, e)⟩ := by
  intro pre
  induction pre with
  | nil =>
    intro db db1 names hpre hfail
    simp only [runTables, RunResult.mk.injEq] at hpre
    obtain ⟨hdb, hnames, -⟩ := hpre
    subst hdb
    subst hnames
    simp only [List.nil_append, runTables]
    rw [hfail]
  | cons p pre1 ih =>
    intro db db1 names hpre hfail
    cases hs : (load_csv p db).err with
    | some e2 =>
      rw [runTables] at hpre
      rw [hs] at hpre
      simp only [RunResult.mk.injEq] at hpre
      exact absurd hpre.2.2 (by simp)
    | none =>
      rw [runTables] at hpre
      rw [hs] at hpre
      simp only [RunResult.mk.injEq] at hpre
      obtain ⟨hdb, hnames, hfl⟩ := hpre
      have hpre1 : runTables pre1 ((load_csv p db).db) = ⟨db1, (runTables pre1 ((load_csv p db).db)).processed, none⟩ := by
        rw [← hdb, ← hfl]
      have hrec := ih ((load_csv p db).db) db1 _ hpre1 hfail
      show runTables (p :: (pre1 ++ j :: post)) db = _
      rw [runTables]
      rw [hs, hrec]
      simp only [RunResult.mk.injEq]
      refine ⟨trivial, ?_, trivial⟩
      rw [← hnames]
      simp

/-- C9: Fatal-failure atomicity and halt. In a multi-table run where the
tables before `j` load cleanly and `j`'s load raises a fatal error, the run
result is: the uncommitted batches of `j` (everything since its last
commit) are rolled back and never visible, the committed log is exactly
what was committed before the failure, and the tables after `j` are never
processed — the run stops at `j` reporting its name and error. -/
theorem fatal_halt (pre post : List TableJob) (j : TableJob) (db db1 : DB)
    (names : List String) (e : LoadErr)
    (hpre : runTables pre db = ⟨db1, names, none⟩)
    (hfail : (load_csv j db1).err = some e) :
    runTables (pre ++ j :: post) db
      = ⟨rollbackDB (load_csv j db1).db, names ++ [j.name], some (j.name, e)⟩
    ∧ (rollbackDB (load_csv j db1).db).uncommitted = []
    ∧ (rollbackDB (load_csv j db1).db).committed = (load_csv j db1).db.committed :=
  ⟨runTables_append_fail j post e pre db db1 names hpre hfail, rfl, rfl⟩

/-- Witness for C9: a one-table run whose only table is missing from the
target schema stops immediately with the error, nothing committed. -/
theorem fatal_halt_witness :
    runTables
        [{ name := "t", tableCols := [], csvCols := [], rows := [],
           chunksize := 1, commit_every := 1, truncate := false,
           truncFails := false, failAt := none }]
        ⟨[], []⟩
      = ⟨⟨[], []⟩, ["t"], some ("t", .tableMissing)⟩ :=
  ((fatal_halt [] []
      { name := "t", tableCols := [], csvCols := [], rows := [],
        chunksize := 1, commit_every := 1, truncate := false,
        truncFails := false, failAt := none }
      ⟨[], []⟩ ⟨[], []⟩ [] .tableMissing rfl rfl).1).trans (by decide)

/-- C10: Implicit truncate fallback. Whether or not the `TRUNCATE TABLE`
statement raises (forcing the `DELETE FROM` fallback), the result is the
same: the table is emptied — after the truncation commit an external
reader sees no rows of the table — and a truncating load proceeds exactly
like a non-truncating load started on the already-cleared, committed
state, so the clear takes effect before any batch insert. -/
theorem truncate_fallback (job : TableJob) (db : DB) (b : Bool)
    (hcols : ¬job.tableCols.isEmpty = true) (htr : job.truncate = true) :
    truncate_table true job.name db = truncate_table false job.name db
    ∧ rowsOf job.name (commitDB (truncate_table b job.name db)) = []
    ∧ load_csv job db
        = load_csv { job with truncate := false }
            (commitDB (truncate_table job.truncFails job.name db)) := by
  refine ⟨rfl, ?_, ?_⟩
  · cases b <;>
      · rw [truncate_table]
        simp [rowsOf, commitDB, clearTable, List.filter_append,
          List.filter_filter]
  · have hcols2 : ¬({ job with truncate := false } : TableJob).tableCols.isEmpty
        = true := hcols
    rw [load_csv_loop job db hcols,
      load_csv_loop { job with truncate := false } _ hcols2, htr]
    rfl

/-- Witness for C10: both truncate paths clear table `t` of its old row,
and the truncating load equals the fresh load on the cleared state. -/
theorem truncate_fallback_witness :
    truncate_table true "t" ⟨[("t", [some "old"])], []⟩
      = truncate_table false "t" ⟨[("t", [some "old"])], []⟩
    ∧ rowsOf "t" (commitDB (truncate_table true "t" ⟨[("t", [some "old"])], []⟩)) = []
    ∧ load_csv
        { name := "t", tableCols := ["a"], csvCols := ["a"], rows := [["x"]],
          chunksize := 1, commit_every := 1, truncate := true,
          truncFails := true, failAt := none }
        ⟨[("t", [some "old"])], []⟩
      = load_csv
          { name := "t", tableCols := ["a"], csvCols := ["a"], rows := [["x"]],
            chunksize := 1, commit_every := 1, truncate := false,
            truncFails := true, failAt := none }
          (commitDB (truncate_table true "t" ⟨[("t", [some "old"])], []⟩)) :=
  truncate_fallback
    { name := "t", tableCols := ["a"], csvCols := ["a"], rows := [["x"]],
      chunksize := 1, commit_every := 1, truncate := true,
      truncFails := true, failAt := none }
    ⟨[("t", [some "old"])], []⟩ true (by decide) rfl

end AzLoad
